import Mathlib

/-!
# Verification of the `license-checkr` dependency/license-policy engine

A shallow embedding, in Lean 4, of the core of the `license-checkr`
program: the data model (`src/models.rs`), the policy engine and SPDX
expression evaluator (`src/config.rs`), the license classifier
(`src/license/classifier.rs`, `src/license/spdx.rs`), the scan
orchestration and online enrichment (`src/main.rs`), the Python analyzer's
deduplication (`src/analyzer/python.rs`), the Rust analyzer's error
behaviour (`src/analyzer/rust.rs`), and the workspace walker
(`src/detector.rs`).

Pure Rust functions become Lean functions; fallible Rust code returns
`Except`/`Option`; recursion that Rust runs on the call stack is embedded
with an explicit fuel parameter (`none` models a computation that would
not complete), together with theorems showing the chosen fuel always
suffices.  File-system interaction is embedded by passing the parsed
content of the relevant files (or the outcome of reading them) as
explicit arguments.
-/

namespace LicenseCheckr

/-! ## Data model (`src/models.rs`) -/

/-- `models::PolicyVerdict` — the result of evaluating a dependency's
license against the active policy. -/
inductive PolicyVerdict where
  | Pass
  | Warn
  | Error
deriving DecidableEq, Repr

/-- `models::LicenseRisk` — risk level associated with a license type. -/
inductive LicenseRisk where
  | Permissive
  | WeakCopyleft
  | StrongCopyleft
  | Proprietary
  | Unknown
deriving DecidableEq, BEq, Repr

/-- `models::Ecosystem` — supported package ecosystems. -/
inductive Ecosystem where
  | Rust
  | Python
  | Java
  | Node
  | DotNet
deriving DecidableEq, BEq, Repr

/-- `models::LicenseSource` — where the license information came from. -/
inductive LicenseSource where
  | Manifest
  | Registry
  | Cache
  | Unknown
deriving DecidableEq, Repr

/-- `models::Dependency` — a resolved dependency with license info and
policy verdict. -/
structure Dependency where
  name : String
  version : String
  ecosystem : Ecosystem
  license_raw : Option String
  license_spdx : Option String
  risk : LicenseRisk
  verdict : PolicyVerdict
  source : LicenseSource
deriving DecidableEq, Repr

/-! ## Policy configuration (`src/config.rs`) -/

/-- `config::PolicyAction` — the action configured for a license rule. -/
inductive PolicyAction where
  | pass
  | warn
  | error
deriving DecidableEq, Repr

/-- `PolicyAction::to_verdict`. -/
def PolicyAction.to_verdict : PolicyAction → PolicyVerdict
  | .pass => .Pass
  | .warn => .Warn
  | .error => .Error

/-- `config::PolicyConfig` — a default action plus per-license overrides.
The Rust `HashMap<String, PolicyAction>` is embedded as an association
list with exact-match lookup (`List.lookup`); all configs built by the
program have distinct keys. -/
structure PolicyConfig where
  default : PolicyAction
  licenses : List (String × PolicyAction)
deriving DecidableEq, Repr

/-- `config::Config`. -/
structure Config where
  policy : PolicyConfig
deriving DecidableEq, Repr

/-- `Config::default` — the built-in default policy used when no config
file is found (`impl Default for Config`, `src/config.rs`). -/
def Config.default : Config :=
  { policy :=
    { default := .warn
      licenses :=
        [ ("MIT", .pass)
        , ("Apache-2.0", .pass)
        , ("BSD-2-Clause", .pass)
        , ("BSD-3-Clause", .pass)
        , ("ISC", .pass)
        , ("LGPL-2.1", .warn)
        , ("GPL-2.0", .error)
        , ("GPL-3.0", .error)
        , ("AGPL-3.0", .error)
        , ("unknown", .warn) ] } }

/-- `config::verdict_or` — most permissive (least severe) of two
verdicts, used for OR semantics. -/
def verdict_or : PolicyVerdict → PolicyVerdict → PolicyVerdict
  | .Pass, _ => .Pass
  | _, .Pass => .Pass
  | .Warn, _ => .Warn
  | _, .Warn => .Warn
  | _, _ => .Error

/-- `config::verdict_and` — most restrictive (most severe) of two
verdicts, used for AND semantics. -/
def verdict_and : PolicyVerdict → PolicyVerdict → PolicyVerdict
  | .Error, _ => .Error
  | _, .Error => .Error
  | .Warn, _ => .Warn
  | _, .Warn => .Warn
  | _, _ => .Pass

/-- `config::apply_policy_single` — look up a single (non-compound) SPDX
identifier in the policy map, falling back to the configured default. -/
def apply_policy_single (config : Config) (id : String) : PolicyVerdict :=
  match config.policy.licenses.lookup id with
  | some action => action.to_verdict
  | none => config.policy.default.to_verdict

/-! ## String helpers

Executable embeddings of the Rust `str` operations the program uses.
They are written over the character list `String.data` so that every
definition in this development evaluates by kernel reduction.  Case
conversion is ASCII-level, which coincides with Rust's behaviour on the
ASCII license strings this program manipulates. -/

/-- `str::replace(pattern: char, to: &str)` — replace every occurrence
of the character `c` by the string `r`. -/
def replaceChar (s : String) (c : Char) (r : String) : String :=
  String.mk (s.data.foldr (fun ch acc => if ch = c then r.data ++ acc else ch :: acc) [])

/-- `str::trim` — strip leading and trailing whitespace. -/
def trimStr (s : String) : String :=
  String.mk (((s.data.dropWhile Char.isWhitespace).reverse.dropWhile Char.isWhitespace).reverse)

/-- `str::to_lowercase` (ASCII range). -/
def toLowerStr (s : String) : String :=
  String.mk (s.data.map Char.toLower)

/-- `str::contains(&str)` — substring occurrence test. -/
def containsSub : List Char → List Char → Bool
  | _, [] => true
  | [], sub => sub.isEmpty
  | c :: rest, sub => sub.isPrefixOf (c :: rest) || containsSub rest sub

/-- `str::contains` lifted to `String`. -/
def containsStr (s sub : String) : Bool :=
  containsSub s.data sub.data

/-- Worker for `str::split(&str)`: `cur` holds the characters of the
current field in reverse; one unit of fuel is spent per character
consumed, so `fuel = l.length + 1` always completes. -/
def splitOnGo (sep : List Char) (fuel : Nat) (cur : List Char) (l : List Char) :
    List (List Char) :=
  match fuel with
  | 0 => [cur.reverse]
  | fuel + 1 =>
    match l with
    | [] => [cur.reverse]
    | c :: rest =>
      if sep.isPrefixOf (c :: rest) then
        cur.reverse :: splitOnGo sep fuel [] ((c :: rest).drop sep.length)
      else
        splitOnGo sep fuel (c :: cur) rest

/-- `str::split(&str)` collected into a list (`splitOn`); the separator
is assumed non-empty, as everywhere in the program. -/
def splitOnStr (s sep : String) : List String :=
  (splitOnGo sep.data (s.data.length + 1) [] s.data).map String.mk

/-! ## SPDX expression tokenizer (`config::tokenize_spdx`) -/

/-- `config::Token` — tokens of an SPDX license expression. -/
inductive Token where
  | id (s : String)
  | andT
  | orT
  | withT
  | lparen
  | rparen
deriving DecidableEq, Repr

/-- Map a completed identifier run to its token
(the keyword match inside `tokenize_spdx`). -/
def mkTok (s : String) : Token :=
  match s with
  | "AND" => .andT
  | "OR" => .orT
  | "WITH" => .withT
  | _ => .id s

/-- Flush the currently accumulated identifier characters (held in
reverse) as one token, if any, in front of `ts`. -/
def flushTok (acc : List Char) (ts : List Token) : List Token :=
  match acc with
  | [] => ts
  | _ => mkTok (String.mk acc.reverse) :: ts

/-- Character-by-character loop of `config::tokenize_spdx`: whitespace
separates tokens, `(` and `)` are standalone tokens, and every other
maximal non-whitespace run is an identifier (or the keyword `AND`/`OR`/
`WITH`). `acc` holds the characters of the identifier currently being
scanned, in reverse. -/
def tokenizeGo (acc : List Char) : List Char → List Token
  | [] => flushTok acc []
  | c :: rest =>
    if c.isWhitespace then flushTok acc (tokenizeGo [] rest)
    else if c = '(' then flushTok acc (.lparen :: tokenizeGo [] rest)
    else if c = ')' then flushTok acc (.rparen :: tokenizeGo [] rest)
    else tokenizeGo (c :: acc) rest

/-- `config::tokenize_spdx` — tokenize an SPDX license expression. -/
def tokenize_spdx (expr : String) : List Token :=
  tokenizeGo [] expr.data

/-! ## SPDX expression parser (`config::ExprParser`)

The Rust parser is a recursive-descent interpreter over a token vector
with a cursor.  It is embedded as functions over the remaining token
list, with an explicit fuel parameter: every recursive call (including
the `while` loops of `parse_or`/`parse_and`, unrolled into `orLoopF`/
`andLoopF`) spends one unit of fuel, and exhausted fuel yields `none`.
`parser_fuel_sufficient` below shows the fuel chosen by
`eval_spdx_expr` always suffices, so the embedded parser never actually
returns `none` — mirroring the fact that the Rust parser terminates and
never panics. -/

mutual

/-- `ExprParser::parse_atom` — a parenthesised sub-expression or a single
license id; a `WITH` clause consumes the exception identifier and
discards it; any other token (or end of input) yields the configured
default verdict without consuming anything. -/
def parseAtomF (fuel : Nat) (cfg : Config) (ts : List Token) :
    Option (PolicyVerdict × List Token) :=
  match fuel with
  | 0 => none
  | fuel + 1 =>
    match ts with
    | .lparen :: rest =>
      match parseOrF fuel cfg rest with
      | none => none
      | some (v, ts1) =>
        match ts1 with
        | .rparen :: rest1 => some (v, rest1)
        | _ => some (v, ts1)
    | .id s :: rest =>
      match rest with
      | .withT :: rest2 => some (apply_policy_single cfg s, rest2.drop 1)
      | _ => some (apply_policy_single cfg s, rest)
    | _ => some (cfg.policy.default.to_verdict, ts)
termination_by structural fuel

/-- The `while` loop of `ExprParser::parse_and`, combining successive
`AND`-joined atoms via `verdict_and`. -/
def andLoopF (fuel : Nat) (cfg : Config) (acc : PolicyVerdict) (ts : List Token) :
    Option (PolicyVerdict × List Token) :=
  match fuel with
  | 0 => none
  | fuel + 1 =>
    match ts with
    | .andT :: rest =>
      match parseAtomF fuel cfg rest with
      | none => none
      | some (v, ts1) => andLoopF fuel cfg (verdict_and acc v) ts1
    | _ => some (acc, ts)
termination_by structural fuel

/-- `ExprParser::parse_and`. -/
def parseAndF (fuel : Nat) (cfg : Config) (ts : List Token) :
    Option (PolicyVerdict × List Token) :=
  match fuel with
  | 0 => none
  | fuel + 1 =>
    match parseAtomF fuel cfg ts with
    | none => none
    | some (v, ts1) => andLoopF fuel cfg v ts1
termination_by structural fuel

/-- The `while` loop of `ExprParser::parse_or`, combining successive
`OR`-joined and-expressions via `verdict_or`. -/
def orLoopF (fuel : Nat) (cfg : Config) (acc : PolicyVerdict) (ts : List Token) :
    Option (PolicyVerdict × List Token) :=
  match fuel with
  | 0 => none
  | fuel + 1 =>
    match ts with
    | .orT :: rest =>
      match parseAndF fuel cfg rest with
      | none => none
      | some (v, ts1) => orLoopF fuel cfg (verdict_or acc v) ts1
    | _ => some (acc, ts)
termination_by structural fuel

/-- `ExprParser::parse_or`. -/
def parseOrF (fuel : Nat) (cfg : Config) (ts : List Token) :
    Option (PolicyVerdict × List Token) :=
  match fuel with
  | 0 => none
  | fuel + 1 =>
    match parseAndF fuel cfg ts with
    | none => none
    | some (v, ts1) => orLoopF fuel cfg v ts1
termination_by structural fuel

end

/-- `config::eval_spdx_expr` — evaluate a full SPDX expression string
against the policy, with fuel large enough to always complete. -/
def eval_spdx_expr (config : Config) (expr : String) : Option PolicyVerdict :=
  let tokens := tokenize_spdx expr
  match parseOrF (4 * tokens.length + 3) config tokens with
  | none => none
  | some (v, _) => some v

/-- `config::apply_policy` — determine the policy verdict for a license
identifier or expression: exact-match lookup first, then `/` → ` OR `
normalization, then SPDX expression evaluation.  `none` input stands for
Rust's `None`, looked up as `"unknown"`.  The `Option` result models the
possibility of the parser not completing; `apply_policy_total` shows it
never happens. -/
def apply_policy (config : Config) (license_spdx : Option String) : Option PolicyVerdict :=
  let license := license_spdx.getD "unknown"
  match config.policy.licenses.lookup license with
  | some action => some action.to_verdict
  | none =>
    let normalized := replaceChar license '/' " OR "
    eval_spdx_expr config normalized

/-! ## License risk classification (`src/license/spdx.rs`) -/

/-- `license::spdx::classify_spdx_id` — classify a single canonical SPDX
identifier into a risk level. -/
def classify_spdx_id (id : String) : LicenseRisk :=
  match trimStr id with
  | "MIT" | "Apache-2.0" | "BSD-2-Clause" | "BSD-3-Clause" | "BSD-4-Clause"
  | "ISC" | "0BSD" | "Unlicense" | "Zlib" | "CC0-1.0" | "WTFPL"
  | "CC-BY-4.0" | "CC-BY-3.0" | "PSF-2.0" | "Python-2.0" | "MIT-0"
  | "BlueOak-1.0.0" | "Artistic-2.0" => .Permissive
  | "LGPL-2.0" | "LGPL-2.0-only" | "LGPL-2.0-or-later"
  | "LGPL-2.1" | "LGPL-2.1-only" | "LGPL-2.1-or-later"
  | "LGPL-3.0" | "LGPL-3.0-only" | "LGPL-3.0-or-later"
  | "MPL-2.0" | "EUPL-1.2" | "CDDL-1.0" | "EPL-1.0" | "EPL-2.0"
  | "APSL-2.0" | "OSL-3.0" => .WeakCopyleft
  | "GPL-2.0" | "GPL-2.0-only" | "GPL-2.0-or-later"
  | "GPL-3.0" | "GPL-3.0-only" | "GPL-3.0-or-later"
  | "AGPL-3.0" | "AGPL-3.0-only" | "AGPL-3.0-or-later"
  | "EUPL-1.1" => .StrongCopyleft
  | _ => .Unknown

/-- `license::spdx::normalize` — normalize common non-SPDX strings to
their SPDX equivalents. -/
def normalizeLicense (raw : String) : String :=
  match trimStr raw with
  | "Apache 2.0" | "Apache License 2.0" | "Apache License, Version 2.0" => "Apache-2.0"
  | "MIT License" | "The MIT License" => "MIT"
  | "BSD" | "BSD License" => "BSD-3-Clause"
  | "BSD 2-Clause" | "Simplified BSD" => "BSD-2-Clause"
  | "BSD 3-Clause" | "New BSD" | "Modified BSD" => "BSD-3-Clause"
  | "GNU GPL v2" | "GNU General Public License v2" | "GPL v2" | "GPLv2" => "GPL-2.0"
  | "GNU GPL v3" | "GNU General Public License v3" | "GPL v3" | "GPLv3" => "GPL-3.0"
  | "GNU LGPL v2.1" | "LGPL v2.1" | "LGPLv2.1" => "LGPL-2.1"
  | "GNU LGPL v3" | "LGPL v3" | "LGPLv3" => "LGPL-3.0"
  | "Mozilla Public License 2.0" | "MPL 2.0" | "MPLv2" => "MPL-2.0"
  | "ISC License" => "ISC"
  | "CC0" | "Public Domain" => "CC0-1.0"
  | "AGPL v3" | "AGPLv3" | "GNU AGPL v3" => "AGPL-3.0"
  | other => other

/-! ## License classifier (`src/license/classifier.rs`) -/

/-- `classifier::classify_single` — strip a `WITH` exception clause and
classify the base identifier. -/
def classify_single (id : String) : LicenseRisk :=
  classify_spdx_id (trimStr ((splitOnStr id " WITH ").headD id))

/-- `classifier::most_permissive` — priority order
Permissive, WeakCopyleft, StrongCopyleft, Proprietary, Unknown. -/
def most_permissive (risks : List LicenseRisk) : LicenseRisk :=
  if risks.contains .Permissive then .Permissive
  else if risks.contains .WeakCopyleft then .WeakCopyleft
  else if risks.contains .StrongCopyleft then .StrongCopyleft
  else if risks.contains .Proprietary then .Proprietary
  else .Unknown

/-- `classifier::most_restrictive` — priority order
Proprietary, StrongCopyleft, WeakCopyleft, Permissive, Unknown. -/
def most_restrictive (risks : List LicenseRisk) : LicenseRisk :=
  if risks.contains .Proprietary then .Proprietary
  else if risks.contains .StrongCopyleft then .StrongCopyleft
  else if risks.contains .WeakCopyleft then .WeakCopyleft
  else if risks.contains .Permissive then .Permissive
  else .Unknown

/-- `classifier::classify` — classify a license string (raw or SPDX)
into a risk level: empty/"unknown" short-circuit, proprietary/commercial
substring check, alias normalization, `/` → ` OR `, then a string-level
split on ` OR ` (taking the most permissive part) or, failing that, on
` AND ` (taking the most restrictive part). -/
def classify (license : String) : LicenseRisk :=
  let trimmed := trimStr license
  if trimmed = "" ∨ toLowerStr trimmed = "unknown" then .Unknown
  else
    let lower := toLowerStr trimmed
    if containsStr lower "proprietary" ∨ containsStr lower "commercial" then .Proprietary
    else
      let normalized := replaceChar (normalizeLicense trimmed) '/' " OR "
      if containsStr normalized " OR " then
        most_permissive ((splitOnStr normalized " OR ").map (fun p => classify_single (trimStr p)))
      else if containsStr normalized " AND " then
        most_restrictive ((splitOnStr normalized " AND ").map (fun p => classify_single (trimStr p)))
      else
        classify_single normalized

/-! ## Full-parse risk classification (modelled from the spec)

The spec (§4.6) states that the classifier's flat split "gives the
correct tier", "matching the same precedence logic as the Expression
Engine".  To compare, the following definitions follow the spec's words:
a full recursive-descent parse of the license expression with the §4.5
grammar (AND binds tighter than OR, parentheses, `WITH` stripped),
resolving each identifier through the same fixed table
(`classify_spdx_id`) and combining OR via most-permissive and AND via
most-restrictive.  A missing operand is read as `Unknown`. -/

mutual

/-- Spec-modelled full parse, atom level (mirrors `parse_atom` with
risks in place of verdicts). -/
def riskAtomF (fuel : Nat) (ts : List Token) : Option (LicenseRisk × List Token) :=
  match fuel with
  | 0 => none
  | fuel + 1 =>
    match ts with
    | .lparen :: rest =>
      match riskOrF fuel rest with
      | none => none
      | some (v, ts1) =>
        match ts1 with
        | .rparen :: rest1 => some (v, rest1)
        | _ => some (v, ts1)
    | .id s :: rest =>
      match rest with
      | .withT :: rest2 => some (classify_spdx_id s, rest2.drop 1)
      | _ => some (classify_spdx_id s, rest)
    | _ => some (.Unknown, ts)
termination_by structural fuel

/-- Spec-modelled full parse, AND-loop level. -/
def riskAndLoopF (fuel : Nat) (acc : LicenseRisk) (ts : List Token) :
    Option (LicenseRisk × List Token) :=
  match fuel with
  | 0 => none
  | fuel + 1 =>
    match ts with
    | .andT :: rest =>
      match riskAtomF fuel rest with
      | none => none
      | some (v, ts1) => riskAndLoopF fuel (most_restrictive [acc, v]) ts1
    | _ => some (acc, ts)
termination_by structural fuel

/-- Spec-modelled full parse, AND level. -/
def riskAndF (fuel : Nat) (ts : List Token) : Option (LicenseRisk × List Token) :=
  match fuel with
  | 0 => none
  | fuel + 1 =>
    match riskAtomF fuel ts with
    | none => none
    | some (v, ts1) => riskAndLoopF fuel v ts1
termination_by structural fuel

/-- Spec-modelled full parse, OR-loop level. -/
def riskOrLoopF (fuel : Nat) (acc : LicenseRisk) (ts : List Token) :
    Option (LicenseRisk × List Token) :=
  match fuel with
  | 0 => none
  | fuel + 1 =>
    match ts with
    | .orT :: rest =>
      match riskAndF fuel rest with
      | none => none
      | some (v, ts1) => riskOrLoopF fuel (most_permissive [acc, v]) ts1
    | _ => some (acc, ts)
termination_by structural fuel

/-- Spec-modelled full parse, OR level. -/
def riskOrF (fuel : Nat) (ts : List Token) : Option (LicenseRisk × List Token) :=
  match fuel with
  | 0 => none
  | fuel + 1 =>
    match riskAndF fuel ts with
    | none => none
    | some (v, ts1) => riskOrLoopF fuel v ts1
termination_by structural fuel

end

/-- Modelled from the spec: the risk tier of a license string computed
by a full parse with the Expression Engine's precedence (§4.6 read
against §4.5), after the same pre-processing steps as `classify`
(empty/"unknown", proprietary/commercial, alias normalization and
`/` → ` OR `). -/
def classifyFullSpec (license : String) : LicenseRisk :=
  let trimmed := trimStr license
  if trimmed = "" ∨ toLowerStr trimmed = "unknown" then .Unknown
  else
    let lower := toLowerStr trimmed
    if containsStr lower "proprietary" ∨ containsStr lower "commercial" then .Proprietary
    else
      let normalized := replaceChar (normalizeLicense trimmed) '/' " OR "
      let tokens := tokenize_spdx normalized
      match riskOrF (4 * tokens.length + 3) tokens with
      | none => .Unknown
      | some (v, _) => v

/-! ## Analyzers (`src/analyzer/rust.rs`, `src/analyzer/python.rs`)

An analyzer reads manifest files and returns `Result<Vec<Dependency>>`.
The file system is embedded by passing the outcome of reading/parsing
each manifest as an argument: `none` for "file does not exist" (or, for
Python, "unreadable/unparsable", which the Python analyzer treats the
same way), `some` for parsed content. -/

/-- A `[[package]]` entry of `Cargo.lock` (`rust::CargoLockPackage`):
packages without a `source` field are local workspace members. -/
structure CargoLockPackage where
  name : String
  version : String
  source : Option String
deriving DecidableEq, Repr

/-- `RustAnalyzer::analyze`.  `lockfile` is the outcome of
`Cargo.lock`: `none` when the file does not exist (→ `Ok(vec![])`),
`some (.error e)` when reading or TOML-parsing fails (the `?` operator
propagates the error), `some (.ok pkgs)` on success.  `cache` embeds
`license_from_cargo_cache`, the local Cargo registry cache lookup. -/
def rustAnalyze (lockfile : Option (Except String (List CargoLockPackage)))
    (cache : String → String → Option String) : Except String (List Dependency) :=
  match lockfile with
  | none => .ok []
  | some (.error e) => .error e
  | some (.ok pkgs) =>
    .ok ((pkgs.filter (fun p => p.source.isSome)).map (fun p =>
      let license := cache p.name p.version
      { name := p.name
        version := p.version
        ecosystem := .Rust
        license_spdx := license
        license_raw := license
        risk := .Unknown
        verdict := .Warn
        source := if license.isSome then .Cache else .Unknown }))

/-- `python::make_dep`. -/
def make_dep (name version : String) : Dependency :=
  { name := name
    version := version
    ecosystem := .Python
    license_raw := none
    license_spdx := none
    risk := .Unknown
    verdict := .Warn
    source := .Unknown }

/-- The `Pipfile.lock` phase of `PythonAnalyzer::analyze`: every parsed
`(name, version)` pair is pushed and its lowercased name recorded in
`seen`, with no membership check. -/
def pyPushAll (acc : List Dependency × List String) (items : List (String × String)) :
    List Dependency × List String :=
  items.foldl (fun acc item =>
    (acc.1 ++ [make_dep item.1 item.2], acc.2 ++ [toLowerStr item.1])) acc

/-- The `requirements.txt` / `pyproject.toml` phases of
`PythonAnalyzer::analyze`: a pair whose lowercased name is already in
`seen` is skipped; otherwise it is pushed and recorded. -/
def pyPushNew (acc : List Dependency × List String) (items : List (String × String)) :
    List Dependency × List String :=
  items.foldl (fun acc item =>
    if toLowerStr item.1 ∈ acc.2 then acc
    else (acc.1 ++ [make_dep item.1 item.2], acc.2 ++ [toLowerStr item.1])) acc

/-- `PythonAnalyzer::analyze`.  Each argument is the parsed
`(name, version)` list of one manifest, `none` when the file is missing
or fails to parse (both silently skipped by the Rust code).  Sources are
processed in priority order `Pipfile.lock` → `requirements.txt` →
`pyproject.toml`, deduplicating by lowercased name. -/
def pythonAnalyze (pipfile requirements pyproject : Option (List (String × String))) :
    List Dependency :=
  let acc0 : List Dependency × List String := ([], [])
  let acc1 := match pipfile with
    | none => acc0
    | some items => pyPushAll acc0 items
  let acc2 := match requirements with
    | none => acc1
    | some items => pyPushNew acc1 items
  let acc3 := match pyproject with
    | none => acc2
    | some items => pyPushNew acc2 items
  acc3.1

/-! ## Online enrichment (`main::enrich_online`) -/

/-- The outcome of one registry fetch task, as matched by
`enrich_online`: only `Ok(Ok(Some(license)))` — here `success` —
triggers an update; a not-found (`Ok(Ok(None))`), a fetch error
(`Ok(Err(_))`, e.g. network failure or the 10 s timeout) and a join
error (`Err(_)`) all leave the dependency untouched. -/
inductive FetchOutcome where
  | success (license : String)
  | notFound
  | fetchFailed
  | joinFailed
deriving DecidableEq, Repr

/-- The write-back step of `enrich_online`: on `success`,
`license_raw`, `license_spdx` and `source` are updated in place; every
other outcome leaves the dependency unchanged. -/
def enrichOne (d : Dependency) (r : FetchOutcome) : Dependency :=
  match r with
  | .success license =>
    { d with license_raw := some license, license_spdx := some license,
             source := .Registry }
  | _ => d

/-- `slice::chunks_mut` worker: `k` is the remaining capacity of the
chunk being built, `acc` its elements in reverse. -/
def chunksGo (n : Nat) : Nat → List α → List α → List (List α)
  | _, acc, [] => if acc.isEmpty then [] else [acc.reverse]
  | 0, acc, x :: rest => acc.reverse :: chunksGo n (n - 1) [x] rest
  | k + 1, acc, x :: rest => chunksGo n k (x :: acc) rest

/-- `slice::chunks_mut(n)` — split a list into chunks of `n` (the last
chunk may be shorter). -/
def chunksOf (n : Nat) (l : List α) : List (List α) :=
  chunksGo n n [] l

/-- `main::enrich_online` — process the dependency list in batches of
50; within a batch, one fetch task per dependency, results zipped back
into the dependency they came from. `fetch` embeds the per-dependency
registry call (chosen by ecosystem) together with the task join. -/
def enrich_online (fetch : Dependency → FetchOutcome) (deps : List Dependency) :
    List Dependency :=
  ((chunksOf 50 deps).map (fun batch =>
    (batch.zip (batch.map fetch)).map (fun p => enrichOne p.1 p.2))).flatten

/-! ## Scan orchestration (`main::scan_project`) -/

/-- The loop body of `scan_project`: analyze each detected ecosystem in
order, with the `?` operator propagating the first analyzer error;
successful results are concatenated (`all_deps.extend(deps)`). -/
def scanEcos (analyze : Ecosystem → Except String (List Dependency)) :
    List Ecosystem → Except String (List Dependency)
  | [] => .ok []
  | e :: rest =>
    match analyze e with
    | .error msg => .error msg
    | .ok deps =>
      match scanEcos analyze rest with
      | .error msg => .error msg
      | .ok more => .ok (deps ++ more)

/-- `main::scan_project` — filter excluded ecosystems from the detected
ones, return `Ok([])` when none remain, otherwise run every analyzer in
order (errors propagate) and optionally enrich online. -/
def scan_project (detected excluded : List Ecosystem) (online : Bool)
    (fetch : Dependency → FetchOutcome)
    (analyze : Ecosystem → Except String (List Dependency)) :
    Except String (List Dependency) :=
  let ecosystems := detected.filter (fun e => ¬ excluded.contains e)
  if ecosystems.isEmpty then .ok []
  else
    match scanEcos analyze ecosystems with
    | .error msg => .error msg
    | .ok deps => .ok (if online then enrich_online fetch deps else deps)

/-! ## Workspace walker (`src/detector.rs`)

The directory tree is embedded as a finite graph of directory nodes
(`FileSys`): node `i < nodes` has plain files `files i` and directory
entries `subdirs i` (a name together with the target node).  A symlink
is simply an entry whose target is an arbitrary node, so cycles are
representable.  `Path::canonicalize` resolves a path to the identity of
the directory it denotes — in this embedding, the node id — so the
walker's canonicalized visited-set becomes a set of node ids.  The
walker's recursion is embedded with fuel (`none` = the walk did not
complete); `walk_fuel_sufficient` shows the fuel chosen by
`find_workspace_projects` always suffices, even in the presence of
cycles. -/

/-- `detector::MANIFEST_FILES` — well-known manifest filenames used to
identify a project root. -/
def MANIFEST_FILES : List String :=
  [ "Cargo.toml", "Cargo.lock", "requirements.txt", "pyproject.toml"
  , "Pipfile.lock", "pom.xml", "build.gradle", "build.gradle.kts"
  , "package.json", "package-lock.json", "yarn.lock", "packages.config"
  , "paket.dependencies" ]

/-- `detector::SKIP_DIRS` — directories never descended into. -/
def SKIP_DIRS : List String :=
  [ "node_modules", ".git", "target", "vendor", ".cargo", "__pycache__"
  , ".venv", "venv", "dist", "build", ".next", ".nuxt", "bin", "obj" ]

/-- A finite directory graph: `nodes` directory nodes, each with a list
of plain file names and a list of named directory entries (symlinks
included — a target may be any node, so cycles are representable). -/
structure FileSys where
  nodes : Nat
  files : Nat → List String
  subdirs : Nat → List (String × Nat)
  root : Nat

/-- `Path::extension` equals the given extension: the part after the
last `.`, provided the name has one and does not consist of a single
leading-dot component. -/
def hasExt (f : String) (ext : String) : Bool :=
  match splitOnStr f "." with
  | [] => false
  | [_] => false
  | p :: rest =>
    if p = "" ∧ rest.length = 1 then false
    else rest.getLast? == some ext

/-- `detector::has_dotnet_project_file` — any `.csproj` or `.fsproj`
entry directly in the directory. -/
def has_dotnet_project_file (fs : FileSys) (id : Nat) : Bool :=
  (fs.files id).any (fun f => hasExt f "csproj" || hasExt f "fsproj")

/-- The is-a-project predicate of `walk_for_projects`: some known
manifest file exists in the directory, or a .NET project file does. -/
def is_project (fs : FileSys) (id : Nat) : Bool :=
  MANIFEST_FILES.any (fun m => (fs.files id).contains m) || has_dotnet_project_file fs id

/-- Kernel-computable lexicographic strict order on character lists
(embedding the path comparison used by Rust's `sort`). -/
def lexLtChars : List Char → List Char → Bool
  | [], [] => false
  | [], _ :: _ => true
  | _ :: _, [] => false
  | a :: as, b :: bs => if a < b then true else if b < a then false else lexLtChars as bs

/-- Strict order on strings. -/
def strLtB (a b : String) : Bool := lexLtChars a.data b.data

/-- Strict lexicographic order on paths (lists of path segments). -/
def pathLtB : List String → List String → Bool
  | [], [] => false
  | [], _ :: _ => true
  | _ :: _, [] => false
  | a :: as, b :: bs => if strLtB a b then true else if strLtB b a then false else pathLtB as bs

/-- The two call shapes of the embedded walker: visiting one directory
(`walk_for_projects` proper) or iterating over the sorted subdirectory
list (its `for sub in subdirs` loop). -/
inductive WalkCall where
  | dir (id : Nat) (path : List String)
  | kids (subs : List (String × Nat)) (path : List String)

/-- `detector::walk_for_projects` — the recursive walk:
canonicalize-and-check the visited set (breaking cycles), record a
project directory and stop descending, otherwise recurse into the
sorted subdirectories that are not in the deny-list.  `path` is the
walked (non-canonical) path from the root, which is what the Rust code
records in its output. -/
def walkF (fs : FileSys) (fuel : Nat) (call : WalkCall) (visited : List Nat) :
    Option (List (List String) × List Nat) :=
  match fuel with
  | 0 => none
  | fuel + 1 =>
    match call with
    | .dir id path =>
      if id ∈ visited then some ([], visited)
      else
        let visited' := id :: visited
        if is_project fs id then some ([path], visited')
        else
          let subs := (fs.subdirs id).filter (fun p => ¬ p.1 ∈ SKIP_DIRS)
          walkF fs fuel (.kids (List.insertionSort (fun a b => strLtB b.1 a.1 = false) subs) path) visited'
    | .kids [] _ => some ([], visited)
    | .kids ((n, t) :: rest) path =>
      match walkF fs fuel (.dir t (path ++ [n])) visited with
      | none => none
      | some (out1, vis1) =>
        match walkF fs fuel (.kids rest path) vis1 with
        | none => none
        | some (out2, vis2) => some (out1 ++ out2, vis2)
termination_by structural fuel

/-- Largest subdirectory-list length over all nodes. -/
def maxSubs (fs : FileSys) : Nat :=
  (Finset.range fs.nodes).sup (fun i => (fs.subdirs i).length)

/-- Fuel that `walk_fuel_sufficient` proves adequate for any walk. -/
def walkFuel (fs : FileSys) : Nat :=
  fs.nodes * (maxSubs fs + 2) + 1

/-- `detector::find_workspace_projects` — run the walk from the root
with an empty visited set and sort the resulting project paths. -/
def find_workspace_projects (fs : FileSys) : Option (List (List String)) :=
  match walkF fs (walkFuel fs) (.dir fs.root []) [] with
  | none => none
  | some (out, _) => some (List.insertionSort (fun p q => pathLtB q p = false) out)

/-- Well-formedness of the embedded directory graph: the root is a
node, every directory entry targets a node, and the entries of one
directory have distinct names (as `fs::read_dir` guarantees). -/
def WellFormedFS (fs : FileSys) : Prop :=
  fs.root < fs.nodes ∧
  (∀ i < fs.nodes, ∀ p ∈ fs.subdirs i, p.2 < fs.nodes) ∧
  (∀ i < fs.nodes, ((fs.subdirs i).map Prod.fst).Nodup)

instance (fs : FileSys) : Decidable (WellFormedFS fs) := by
  unfold WellFormedFS; infer_instance

/-! ## Parser totality -/

/-- Fuel adequacy for the embedded SPDX parser: with fuel at least
`4 * |ts| + k` (where `k` bounds the call-rank), every parse function
completes and consumes tokens monotonically. -/
theorem parser_fuel_sufficient (fuel : Nat) (cfg : Config) :
    (∀ ts : List Token, 4 * ts.length + 1 ≤ fuel →
      ∃ v rest, parseAtomF fuel cfg ts = some (v, rest) ∧ rest.length ≤ ts.length) ∧
    (∀ (acc : PolicyVerdict) (ts : List Token), 4 * ts.length + 1 ≤ fuel →
      ∃ v rest, andLoopF fuel cfg acc ts = some (v, rest) ∧ rest.length ≤ ts.length) ∧
    (∀ ts : List Token, 4 * ts.length + 2 ≤ fuel →
      ∃ v rest, parseAndF fuel cfg ts = some (v, rest) ∧ rest.length ≤ ts.length) ∧
    (∀ (acc : PolicyVerdict) (ts : List Token), 4 * ts.length + 2 ≤ fuel →
      ∃ v rest, orLoopF fuel cfg acc ts = some (v, rest) ∧ rest.length ≤ ts.length) ∧
    (∀ ts : List Token, 4 * ts.length + 3 ≤ fuel →
      ∃ v rest, parseOrF fuel cfg ts = some (v, rest) ∧ rest.length ≤ ts.length) := by
  induction fuel with
  | zero =>
    exact ⟨fun ts h => absurd h (by omega), fun acc ts h => absurd h (by omega),
      fun ts h => absurd h (by omega), fun acc ts h => absurd h (by omega),
      fun ts h => absurd h (by omega)⟩
  | succ fuel ih =>
    obtain ⟨ihAtom, ihAndLoop, ihAnd, ihOrLoop, ihOr⟩ := ih
    have hAtom : ∀ ts : List Token, 4 * ts.length + 1 ≤ fuel + 1 →
        ∃ v rest, parseAtomF (fuel + 1) cfg ts = some (v, rest) ∧ rest.length ≤ ts.length := by
      intro ts h
      cases ts with
      | nil => exact ⟨_, _, rfl, Nat.le_refl _⟩
      | cons t rest =>
        cases t with
        | lparen =>
          obtain ⟨v, ts1, h1, hl1⟩ := ihOr rest (by simp at h ⊢; omega)
          simp only [parseAtomF, h1]
          cases ts1 with
          | nil => exact ⟨v, [], rfl, by simp⟩
          | cons u rest1 =>
            cases u with
            | rparen =>
              refine ⟨v, rest1, rfl, ?_⟩
              simp at hl1 ⊢; omega
            | id s => exact ⟨v, _, rfl, by simp at hl1 ⊢; omega⟩
            | andT => exact ⟨v, _, rfl, by simp at hl1 ⊢; omega⟩
            | orT => exact ⟨v, _, rfl, by simp at hl1 ⊢; omega⟩
            | withT => exact ⟨v, _, rfl, by simp at hl1 ⊢; omega⟩
            | lparen => exact ⟨v, _, rfl, by simp at hl1 ⊢; omega⟩
        | id s =>
          cases rest with
          | nil => exact ⟨_, _, rfl, by simp⟩
          | cons t2 rest2 =>
            cases t2 with
            | withT =>
              refine ⟨_, _, rfl, ?_⟩
              simp [List.length_drop]; omega
            | id s2 => exact ⟨_, _, rfl, by simp⟩
            | andT => exact ⟨_, _, rfl, by simp⟩
            | orT => exact ⟨_, _, rfl, by simp⟩
            | lparen => exact ⟨_, _, rfl, by simp⟩
            | rparen => exact ⟨_, _, rfl, by simp⟩
        | andT => exact ⟨_, _, rfl, Nat.le_refl _⟩
        | orT => exact ⟨_, _, rfl, Nat.le_refl _⟩
        | withT => exact ⟨_, _, rfl, Nat.le_refl _⟩
        | rparen => exact ⟨_, _, rfl, Nat.le_refl _⟩
    have hAndLoop : ∀ (acc : PolicyVerdict) (ts : List Token), 4 * ts.length + 1 ≤ fuel + 1 →
        ∃ v rest, andLoopF (fuel + 1) cfg acc ts = some (v, rest) ∧ rest.length ≤ ts.length := by
      intro acc ts h
      cases ts with
      | nil => exact ⟨_, _, rfl, Nat.le_refl _⟩
      | cons t rest =>
        cases t with
        | andT =>
          obtain ⟨v, ts1, h1, hl1⟩ := ihAtom rest (by simp at h ⊢; omega)
          obtain ⟨v2, ts2, h2, hl2⟩ := ihAndLoop (verdict_and acc v) ts1 (by simp at h ⊢; omega)
          refine ⟨v2, ts2, ?_, by simp at h ⊢; omega⟩
          simp only [andLoopF, h1, h2]
        | id s => exact ⟨_, _, rfl, Nat.le_refl _⟩
        | orT => exact ⟨_, _, rfl, Nat.le_refl _⟩
        | withT => exact ⟨_, _, rfl, Nat.le_refl _⟩
        | lparen => exact ⟨_, _, rfl, Nat.le_refl _⟩
        | rparen => exact ⟨_, _, rfl, Nat.le_refl _⟩
    have hAnd : ∀ ts : List Token, 4 * ts.length + 2 ≤ fuel + 1 →
        ∃ v rest, parseAndF (fuel + 1) cfg ts = some (v, rest) ∧ rest.length ≤ ts.length := by
      intro ts h
      obtain ⟨v, ts1, h1, hl1⟩ := ihAtom ts (by omega)
      obtain ⟨v2, ts2, h2, hl2⟩ := ihAndLoop v ts1 (by omega)
      refine ⟨v2, ts2, ?_, by omega⟩
      simp only [parseAndF, h1, h2]
    have hOrLoop : ∀ (acc : PolicyVerdict) (ts : List Token), 4 * ts.length + 2 ≤ fuel + 1 →
        ∃ v rest, orLoopF (fuel + 1) cfg acc ts = some (v, rest) ∧ rest.length ≤ ts.length := by
      intro acc ts h
      cases ts with
      | nil => exact ⟨_, _, rfl, Nat.le_refl _⟩
      | cons t rest =>
        cases t with
        | orT =>
          obtain ⟨v, ts1, h1, hl1⟩ := ihAnd rest (by simp at h ⊢; omega)
          obtain ⟨v2, ts2, h2, hl2⟩ := ihOrLoop (verdict_or acc v) ts1 (by simp at h ⊢; omega)
          refine ⟨v2, ts2, ?_, by simp at h ⊢; omega⟩
          simp only [orLoopF, h1, h2]
        | id s => exact ⟨_, _, rfl, Nat.le_refl _⟩
        | andT => exact ⟨_, _, rfl, Nat.le_refl _⟩
        | withT => exact ⟨_, _, rfl, Nat.le_refl _⟩
        | lparen => exact ⟨_, _, rfl, Nat.le_refl _⟩
        | rparen => exact ⟨_, _, rfl, Nat.le_refl _⟩
    have hOr : ∀ ts : List Token, 4 * ts.length + 3 ≤ fuel + 1 →
        ∃ v rest, parseOrF (fuel + 1) cfg ts = some (v, rest) ∧ rest.length ≤ ts.length := by
      intro ts h
      obtain ⟨v, ts1, h1, hl1⟩ := ihAnd ts (by omega)
      obtain ⟨v2, ts2, h2, hl2⟩ := ihOrLoop v ts1 (by omega)
      refine ⟨v2, ts2, ?_, by omega⟩
      simp only [parseOrF, h1, h2]
    exact ⟨hAtom, hAndLoop, hAnd, hOrLoop, hOr⟩

/-- `eval_spdx_expr` always produces a verdict. -/
theorem eval_spdx_expr_isSome (cfg : Config) (expr : String) :
    (eval_spdx_expr cfg expr).isSome := by
  have h := (parser_fuel_sufficient (4 * (tokenize_spdx expr).length + 3) cfg).2.2.2.2
    (tokenize_spdx expr) (Nat.le_refl _)
  obtain ⟨v, rest, hv, _⟩ := h
  simp [eval_spdx_expr, hv]

/-! ## Demonstration configs for the policy-engine claims -/

/-- A config with no license rules whose default action is `pass`. -/
def cfgDefaultPass : Config := { policy := { default := .pass, licenses := [] } }

/-- A config with no license rules whose default action is `error`. -/
def cfgDefaultError : Config := { policy := { default := .error, licenses := [] } }

/-- A config separating the two candidate parses of
`MIT OR GPL-3.0 AND BSD-3-Clause`. -/
def cfgPrec : Config :=
  { policy :=
    { default := .warn
      licenses := [("MIT", .pass), ("GPL-3.0", .error), ("BSD-3-Clause", .error)] } }

/-- A config whose rule table contains a compound expression, verbatim,
as a key. -/
def cfgCompoundRule : Config :=
  { policy := { default := .warn, licenses := [("MIT OR GPL-3.0", .error)] } }

/-! ## Claim theorems -/

/-- C4: for every license string (malformed ones included) and every
policy config, `apply_policy` returns a verdict — the parser's fuel
always suffices and the only `unreachable!` is never hit — and the
recovery behaviour is as specified: a missing operand evaluates to the
configured default verdict (`pass` and `error` defaults shown on the
operand-less expression `"OR"`, and on the trailing-operator expression
`"MIT OR"` under the built-in default config), while an unmatched `)`
ends the expression (`"MIT ) AND GPL-3.0"` evaluates as just `MIT`,
ignoring the `AND GPL-3.0` tail). -/
theorem apply_policy_total_and_recovers :
    (∀ (cfg : Config) (s : Option String), (apply_policy cfg s).isSome) ∧
    (∀ (fuel : Nat) (cfg : Config),
      parseAtomF (fuel + 1) cfg [] = some (cfg.policy.default.to_verdict, [])) ∧
    apply_policy cfgDefaultPass (some "OR") = some .Pass ∧
    apply_policy cfgDefaultError (some "OR") = some .Error ∧
    apply_policy Config.default (some "MIT OR") = some .Pass ∧
    apply_policy Config.default (some "MIT ) AND GPL-3.0") = some .Pass := by
  refine ⟨?_, fun _ _ => rfl, by decide, by decide, by decide, by decide⟩
  intro cfg s
  simp only [apply_policy]
  cases h : (cfg.policy.licenses.lookup (s.getD "unknown")) with
  | some a => simp [h]
  | none => simpa [h] using eval_spdx_expr_isSome cfg (replaceChar (s.getD "unknown") '/' " OR ")

/-- C5: `AND` binds tighter than `OR`: under a config where the two
candidate parses disagree (`cfgPrec`: MIT pass, GPL-3.0 and
BSD-3-Clause error), `MIT OR GPL-3.0 AND BSD-3-Clause` evaluates as
`MIT OR (GPL-3.0 AND BSD-3-Clause)` — i.e. to
`verdict_or MIT (verdict_and GPL-3.0 BSD-3-Clause) = Pass`, not to the
`Error` that `(MIT OR GPL-3.0) AND BSD-3-Clause` yields — and with the
built-in default config the same expression evaluates to `Pass`. -/
theorem and_binds_tighter_than_or :
    apply_policy cfgPrec (some "MIT OR GPL-3.0 AND BSD-3-Clause") =
      some (verdict_or (apply_policy_single cfgPrec "MIT")
        (verdict_and (apply_policy_single cfgPrec "GPL-3.0")
          (apply_policy_single cfgPrec "BSD-3-Clause"))) ∧
    apply_policy cfgPrec (some "MIT OR GPL-3.0 AND BSD-3-Clause") = some .Pass ∧
    apply_policy cfgPrec (some "(MIT OR GPL-3.0) AND BSD-3-Clause") = some .Error ∧
    apply_policy Config.default (some "MIT OR GPL-3.0 AND BSD-3-Clause") = some .Pass :=
  ⟨by decide, by decide, by decide, by decide⟩

/-- C6: a `WITH` exception clause never changes the verdict: at the
atom level the exception identifier `e` is consumed and discarded for
every config and every identifier, and with the built-in default config
`GPL-2.0 WITH Classpath-exception-2.0` gets the same verdict as
`GPL-2.0`, namely `Error`. -/
theorem with_clause_never_changes_verdict :
    (∀ (fuel : Nat) (cfg : Config) (s e : String) (rest : List Token),
      parseAtomF (fuel + 1) cfg (.id s :: .withT :: .id e :: rest) =
        some (apply_policy_single cfg s, rest)) ∧
    apply_policy Config.default (some "GPL-2.0 WITH Classpath-exception-2.0") =
      apply_policy Config.default (some "GPL-2.0") ∧
    apply_policy Config.default (some "GPL-2.0") = some .Error :=
  ⟨fun _ _ _ _ _ => rfl, by decide, by decide⟩

/-- C10: `apply_policy` performs an exact whole-string lookup before
any normalization or parsing: whenever the complete input string is a
rule key, that rule's verdict is returned — even for a compound
expression such as `"MIT OR GPL-3.0"`, whose rule verdict `Error`
differs from the `Warn` the expression engine would compute for it
under the same config. -/
theorem exact_match_before_parsing :
    (∀ (cfg : Config) (s : String) (a : PolicyAction),
      cfg.policy.licenses.lookup s = some a →
      apply_policy cfg (some s) = some a.to_verdict) ∧
    apply_policy cfgCompoundRule (some "MIT OR GPL-3.0") = some .Error ∧
    eval_spdx_expr cfgCompoundRule "MIT OR GPL-3.0" = some .Warn := by
  refine ⟨?_, by decide, by decide⟩
  intro cfg s a h
  simp [apply_policy, h]

/-- Witness for C10: the general exact-match lookup theorem applied to
the built-in default config and the key `"MIT"`. -/
theorem exact_match_before_parsing_witness :
    apply_policy Config.default (some "MIT") = some PolicyAction.pass.to_verdict :=
  exact_match_before_parsing.1 Config.default "MIT" PolicyAction.pass (by decide)

/-- C3 counterexample: on the mixed expression
`"MIT AND GPL-3.0 OR FOO"` the classifier's flat OR-split yields
`Unknown` (the AND-containing part is looked up as a single unknown
identifier), while the full parse with the Expression Engine's
precedence — `(MIT AND GPL-3.0) OR FOO` — yields `StrongCopyleft`, so
the flat split does not match the full-parse precedence. -/
theorem classify_flat_split_counterexample :
    classify "MIT AND GPL-3.0 OR FOO" = .Unknown ∧
    classifyFullSpec "MIT AND GPL-3.0 OR FOO" = .StrongCopyleft ∧
    LicenseRisk.Unknown ≠ LicenseRisk.StrongCopyleft :=
  ⟨by decide, by decide, by decide⟩

/-- C3 amended: `classify` agrees with the full-parse precedence on
single-operator compounds (`"MIT OR GPL-3.0"`, `"MIT AND GPL-3.0"`),
but on strings mixing `AND` and `OR` it splits on ` OR ` only and
classifies each part as one identifier, so an AND-containing part such
as `"MIT AND GPL-3.0"` classifies as `Unknown` instead of being split
further. -/
theorem classify_flat_split_behaviour :
    classify "MIT OR GPL-3.0" = classifyFullSpec "MIT OR GPL-3.0" ∧
    classify "MIT AND GPL-3.0" = classifyFullSpec "MIT AND GPL-3.0" ∧
    classify "MIT AND GPL-3.0 OR FOO" =
      most_permissive [classify_single "MIT AND GPL-3.0", classify_single "FOO"] ∧
    classify_single "MIT AND GPL-3.0" = .Unknown :=
  ⟨by decide, by decide, by decide, by decide⟩

/-! ## C1 — analyzer failure handling in `scan_project` -/

instance {ε α : Type} [DecidableEq ε] [DecidableEq α] : DecidableEq (Except ε α) := fun a b =>
  match a, b with
  | .error e1, .error e2 =>
    if h : e1 = e2 then isTrue (by rw [h]) else isFalse (by simp [h])
  | .error _, .ok _ => isFalse (by simp)
  | .ok _, .error _ => isFalse (by simp)
  | .ok v1, .ok v2 =>
    if h : v1 = v2 then isTrue (by rw [h]) else isFalse (by simp [h])

/-- If every analyzer before `e` succeeds and `e`'s analyzer fails, the
ecosystem loop of `scan_project` propagates `e`'s error. -/
theorem scanEcos_error (analyze : Ecosystem → Except String (List Dependency)) :
    ∀ (pre : List Ecosystem) (e : Ecosystem) (post : List Ecosystem) (msg : String),
      (∀ x ∈ pre, ∃ ds, analyze x = .ok ds) → analyze e = .error msg →
      scanEcos analyze (pre ++ e :: post) = .error msg := by
  intro pre
  induction pre with
  | nil =>
    intro e post msg _ hErr
    simp [scanEcos, hErr]
  | cons p pre ih =>
    intro e post msg hPre hErr
    obtain ⟨ds, hds⟩ := hPre p (by simp)
    have hrest := ih e post msg (fun x hx => hPre x (by simp [hx])) hErr
    simp [scanEcos, hds, hrest]

/-- Demonstration analyzer family: the Rust analyzer hits a malformed
`Cargo.lock` (via `rustAnalyze`), the Python analyzer succeeds with one
dependency, all others succeed with none. -/
def analyzeDemo : Ecosystem → Except String (List Dependency)
  | .Rust => rustAnalyze (some (.error "malformed Cargo.lock")) (fun _ _ => none)
  | .Python => .ok [make_dep "requests" "2.28.1"]
  | _ => .ok []

/-- C1 counterexample: with Rust and Python both detected and the Rust
analyzer failing on a malformed `Cargo.lock`, `scan_project` returns
the analyzer's error to its caller — it does not continue over Python
and return that ecosystem's dependency, as the claim states. -/
theorem scan_error_escalates_counterexample :
    scan_project [.Rust, .Python] [] false (fun _ => .notFound) analyzeDemo =
      .error "malformed Cargo.lock" ∧
    scan_project [.Rust, .Python] [] false (fun _ => .notFound) analyzeDemo ≠
      .ok [make_dep "requests" "2.28.1"] :=
  ⟨by decide, by decide⟩

/-- C1 amended: if some detected, non-excluded ecosystem's analyzer
fails and every analyzer before it succeeds, `scan_project` returns
that analyzer's error (the `?` operator escalates it); remaining
ecosystems contribute nothing and no dependency list is returned. -/
theorem scan_error_escalates (detected excluded : List Ecosystem) (online : Bool)
    (fetch : Dependency → FetchOutcome)
    (analyze : Ecosystem → Except String (List Dependency))
    (pre : List Ecosystem) (e : Ecosystem) (post : List Ecosystem) (msg : String)
    (hEff : detected.filter (fun x => ¬ excluded.contains x) = pre ++ e :: post)
    (hPre : ∀ x ∈ pre, ∃ ds, analyze x = .ok ds)
    (hErr : analyze e = .error msg) :
    scan_project detected excluded online fetch analyze = .error msg := by
  have h := scanEcos_error analyze pre e post msg hPre hErr
  simp only [scan_project, hEff]
  have hne : (pre ++ e :: post).isEmpty = false := by
    cases pre <;> simp
  simp [hne, h]

/-- Witness for C1's amended theorem, at the demonstration scan. -/
theorem scan_error_escalates_witness :
    scan_project [.Rust, .Python] [] true (fun _ => .notFound) analyzeDemo =
      .error "malformed Cargo.lock" :=
  scan_error_escalates [.Rust, .Python] [] true (fun _ => .notFound) analyzeDemo
    [] .Rust [.Python] "malformed Cargo.lock" (by decide)
    (fun x hx => absurd hx (by simp)) (by decide)

/-! ## C2 — deduplication in the Python analyzer -/

/-- Dependencies already accumulated survive a `pyPushAll` phase. -/
theorem pyPushAll_mono (items : List (String × String)) :
    ∀ (acc : List Dependency × List String) (d : Dependency),
      d ∈ acc.1 → d ∈ (pyPushAll acc items).1 := by
  induction items with
  | nil => intro acc d hd; simpa [pyPushAll] using hd
  | cons x items ih =>
    intro acc d hd
    simp only [pyPushAll, List.foldl_cons] at *
    exact ih _ d (by simp [hd])

/-- Dependencies already accumulated survive a `pyPushNew` phase. -/
theorem pyPushNew_mono (items : List (String × String)) :
    ∀ (acc : List Dependency × List String) (d : Dependency),
      d ∈ acc.1 → d ∈ (pyPushNew acc items).1 := by
  induction items with
  | nil => intro acc d hd; simpa [pyPushNew] using hd
  | cons x items ih =>
    intro acc d hd
    simp only [pyPushNew, List.foldl_cons] at *
    by_cases hx : toLowerStr x.1 ∈ acc.2
    · simpa [hx] using ih _ d hd
    · simpa [hx] using ih _ d (by simp [hd])

/-- Every pair of the `Pipfile.lock` phase is pushed verbatim. -/
theorem pyPushAll_adds (items : List (String × String)) :
    ∀ (acc : List Dependency × List String) (p : String × String),
      p ∈ items → make_dep p.1 p.2 ∈ (pyPushAll acc items).1 := by
  induction items with
  | nil => intro acc p hp; simp at hp
  | cons x items ih =>
    intro acc p hp
    simp only [pyPushAll, List.foldl_cons] at *
    rcases List.mem_cons.mp hp with h | h
    · subst h
      exact pyPushAll_mono items _ (make_dep p.1 p.2) (by simp)
    · exact ih _ p h

/-- The seen-set invariant: every recorded lowercased name is the name
of some accumulated dependency. -/
def SeenInv (acc : List Dependency × List String) : Prop :=
  ∀ s ∈ acc.2, ∃ d ∈ acc.1, toLowerStr d.name = s

/-- `pyPushAll` preserves the seen-set invariant. -/
theorem pyPushAll_inv (items : List (String × String)) :
    ∀ acc, SeenInv acc → SeenInv (pyPushAll acc items) := by
  induction items with
  | nil => intro acc h; simpa [pyPushAll] using h
  | cons x items ih =>
    intro acc hInv
    simp only [pyPushAll, List.foldl_cons] at *
    apply ih
    intro s hs
    simp only [List.mem_append, List.mem_singleton] at hs
    rcases hs with hs | hs
    · obtain ⟨d, hd, hds⟩ := hInv s hs
      exact ⟨d, by simp [hd], hds⟩
    · exact ⟨make_dep x.1 x.2, by simp, by simp [make_dep, hs]⟩

/-- `pyPushNew` preserves the seen-set invariant. -/
theorem pyPushNew_inv (items : List (String × String)) :
    ∀ acc, SeenInv acc → SeenInv (pyPushNew acc items) := by
  induction items with
  | nil => intro acc h; simpa [pyPushNew] using h
  | cons x items ih =>
    intro acc hInv
    simp only [pyPushNew, List.foldl_cons] at *
    by_cases hx : toLowerStr x.1 ∈ acc.2
    · simp only [hx, if_pos]
      exact ih acc hInv
    · simp only [hx, if_neg, not_false_iff]
      apply ih
      intro s hs
      simp only [List.mem_append, List.mem_singleton] at hs
      rcases hs with hs | hs
      · obtain ⟨d, hd, hds⟩ := hInv s hs
        exact ⟨d, by simp [hd], hds⟩
      · exact ⟨make_dep x.1 x.2, by simp, by simp [make_dep, hs]⟩

/-- After a `pyPushNew` phase, every processed pair is represented by
name among the accumulated dependencies. -/
theorem pyPushNew_represented (items : List (String × String)) :
    ∀ acc, SeenInv acc → ∀ p ∈ items,
      ∃ d ∈ (pyPushNew acc items).1, toLowerStr d.name = toLowerStr p.1 := by
  induction items with
  | nil => intro acc _ p hp; simp at hp
  | cons x items ih =>
    intro acc hInv p hp
    simp only [pyPushNew, List.foldl_cons] at *
    rcases List.mem_cons.mp hp with h | h
    · subst h
      by_cases hx : toLowerStr p.1 ∈ acc.2
      · obtain ⟨d, hd, hds⟩ := hInv _ hx
        exact ⟨d, by simpa [hx] using pyPushNew_mono items _ d hd, hds⟩
      · refine ⟨make_dep p.1 p.2, ?_, by simp [make_dep]⟩
        simpa [hx] using pyPushNew_mono items _ (make_dep p.1 p.2) (by simp)
    · by_cases hx : toLowerStr x.1 ∈ acc.2
      · simp only [hx, if_pos]
        exact ih acc hInv p h
      · simp only [hx, if_neg, not_false_iff]
        refine ih _ ?_ p h
        intro s hs
        simp only [List.mem_append, List.mem_singleton] at hs
        rcases hs with hs | hs
        · obtain ⟨d, hd, hds⟩ := hInv s hs
          exact ⟨d, by simp [hd], hds⟩
        · exact ⟨make_dep x.1 x.2, by simp, by simp [make_dep, hs]⟩

/-- Every dependency produced by a `pyPushAll` phase is either inherited
or built from one of the processed pairs. -/
theorem pyPushAll_origin (items : List (String × String)) :
    ∀ acc (d : Dependency), d ∈ (pyPushAll acc items).1 →
      d ∈ acc.1 ∨ ∃ p ∈ items, d = make_dep p.1 p.2 := by
  induction items with
  | nil => intro acc d hd; left; simpa [pyPushAll] using hd
  | cons x items ih =>
    intro acc d hd
    simp only [pyPushAll, List.foldl_cons] at hd
    rcases ih _ d hd with h | ⟨p, hp, hdp⟩
    · simp only [List.mem_append, List.mem_singleton] at h
      rcases h with h | h
      · exact Or.inl h
      · exact Or.inr ⟨x, by simp, h⟩
    · exact Or.inr ⟨p, by simp [hp], hdp⟩

/-- Every dependency produced by a `pyPushNew` phase is either inherited
or built from one of the processed pairs. -/
theorem pyPushNew_origin (items : List (String × String)) :
    ∀ acc (d : Dependency), d ∈ (pyPushNew acc items).1 →
      d ∈ acc.1 ∨ ∃ p ∈ items, d = make_dep p.1 p.2 := by
  induction items with
  | nil => intro acc d hd; left; simpa [pyPushNew] using hd
  | cons x items ih =>
    intro acc d hd
    simp only [pyPushNew, List.foldl_cons] at hd
    by_cases hx : toLowerStr x.1 ∈ acc.2
    · rw [if_pos hx] at hd
      rcases ih _ d hd with h | ⟨p, hp, hdp⟩
      · exact Or.inl h
      · exact Or.inr ⟨p, by simp [hp], hdp⟩
    · rw [if_neg hx] at hd
      rcases ih _ d hd with h | ⟨p, hp, hdp⟩
      · simp only [List.mem_append, List.mem_singleton] at h
        rcases h with h | h
        · exact Or.inl h
        · exact Or.inr ⟨x, by simp, h⟩
      · exact Or.inr ⟨p, by simp [hp], hdp⟩

/-- C2 counterexample: `Pipfile.lock` pins `requests 2.0.0` and
`requirements.txt` pins `requests 2.28.1` — a distinct
`(name, version)` pair — yet the Python analyzer emits only the
`Pipfile.lock` record: deduplication keys on the name alone and drops
the distinct-version dependency. -/
theorem python_dedup_counterexample :
    pythonAnalyze (some [("requests", "2.0.0")]) (some [("requests", "2.28.1")]) none =
      [make_dep "requests" "2.0.0"] ∧
    make_dep "requests" "2.28.1" ∉
      pythonAnalyze (some [("requests", "2.0.0")]) (some [("requests", "2.28.1")]) none :=
  ⟨by decide, by decide⟩

/-- C2 amended: the Python analyzer deduplicates by lowercased name
only, filtering just the lower-priority sources: every `Pipfile.lock`
pair is emitted verbatim, every `requirements.txt`/`pyproject.toml`
pair is at least represented by a dependency with the same lowercased
name (possibly with a different version, from a higher-priority
source), and every emitted dependency comes from one of the three
sources.  (`scan_project` itself performs no cross-ecosystem
deduplication: it concatenates analyzer outputs.) -/
theorem python_dedup_by_name (pip req py : List (String × String)) :
    (∀ p ∈ pip, make_dep p.1 p.2 ∈ pythonAnalyze (some pip) (some req) (some py)) ∧
    (∀ p ∈ req, ∃ d ∈ pythonAnalyze (some pip) (some req) (some py),
      toLowerStr d.name = toLowerStr p.1) ∧
    (∀ p ∈ py, ∃ d ∈ pythonAnalyze (some pip) (some req) (some py),
      toLowerStr d.name = toLowerStr p.1) ∧
    (∀ d ∈ pythonAnalyze (some pip) (some req) (some py),
      ∃ p, (p ∈ pip ∨ p ∈ req ∨ p ∈ py) ∧ d = make_dep p.1 p.2) := by
  have hInv0 : SeenInv (([], []) : List Dependency × List String) := by
    intro s hs; simp at hs
  have hInv1 := pyPushAll_inv pip ([], []) hInv0
  have hInv2 := pyPushNew_inv req _ hInv1
  refine ⟨?_, ?_, ?_, ?_⟩
  · intro p hp
    have h1 := pyPushAll_adds pip ([], []) p hp
    have h2 := pyPushNew_mono req _ _ h1
    have h3 := pyPushNew_mono py _ _ h2
    simpa [pythonAnalyze] using h3
  · intro p hp
    obtain ⟨d, hd, hds⟩ := pyPushNew_represented req _ hInv1 p hp
    have h3 := pyPushNew_mono py _ _ hd
    exact ⟨d, by simpa [pythonAnalyze] using h3, hds⟩
  · intro p hp
    obtain ⟨d, hd, hds⟩ := pyPushNew_represented py _ hInv2 p hp
    exact ⟨d, by simpa [pythonAnalyze] using hd, hds⟩
  · intro d hd
    have hd' : d ∈ (pyPushNew (pyPushNew (pyPushAll ([], []) pip) req) py).1 := by
      simpa [pythonAnalyze] using hd
    rcases pyPushNew_origin py _ d hd' with h | ⟨p, hp, hdp⟩
    · rcases pyPushNew_origin req _ d h with h2 | ⟨p, hp, hdp⟩
      · rcases pyPushAll_origin pip _ d h2 with h3 | ⟨p, hp, hdp⟩
        · simp at h3
        · exact ⟨p, Or.inl hp, hdp⟩
      · exact ⟨p, Or.inr (Or.inl hp), hdp⟩
    · exact ⟨p, Or.inr (Or.inr hp), hdp⟩

/-- Witness for C2's amended theorem: a `Pipfile.lock` entry is kept
verbatim and a `requirements.txt` entry is represented by name. -/
theorem python_dedup_by_name_witness :
    make_dep "requests" "2.0.0" ∈
      pythonAnalyze (some [("requests", "2.0.0")]) (some [("Requests", "2.28.1")]) (some []) :=
  (python_dedup_by_name [("requests", "2.0.0")] [("Requests", "2.28.1")] []).1
    ("requests", "2.0.0") (by decide)

/-! ## C7 — enrichment frame conditions -/

/-- Flattening the chunks rebuilds the original list. -/
theorem chunksGo_flatten {α : Type} (n : Nat) :
    ∀ (l : List α) (k : Nat) (acc : List α),
      (chunksGo n k acc l).flatten = acc.reverse ++ l := by
  intro l
  induction l with
  | nil =>
    intro k acc
    by_cases h : acc.isEmpty
    · simp [chunksGo, h, List.isEmpty_iff.mp h]
    · simp [chunksGo, h]
  | cons x rest ih =>
    intro k acc
    match k with
    | 0 => simp [chunksGo, ih]
    | k + 1 => simp [chunksGo, ih]

/-- `chunksOf` partitions the list. -/
theorem chunksOf_flatten {α : Type} (n : Nat) (l : List α) :
    (chunksOf n l).flatten = l := by
  simpa using chunksGo_flatten n l n []

/-- Zipping a list with its own image under `f` and combining is a map. -/
theorem zip_map_enrichOne (f : Dependency → FetchOutcome) :
    ∀ l : List Dependency,
      (l.zip (l.map f)).map (fun p => enrichOne p.1 p.2) =
        l.map (fun d => enrichOne d (f d)) := by
  intro l
  induction l with
  | nil => simp
  | cons d rest ih => simp [ih]

/-- `enrich_online` is the element-wise write-back: batching in chunks
of 50 and zipping results back is extensionally a map of `enrichOne`. -/
theorem enrich_online_eq_map (fetch : Dependency → FetchOutcome) (deps : List Dependency) :
    enrich_online fetch deps = deps.map (fun d => enrichOne d (fetch d)) := by
  unfold enrich_online
  have h1 : ((chunksOf 50 deps).map (fun batch =>
      (batch.zip (batch.map fetch)).map (fun p => enrichOne p.1 p.2))) =
      (chunksOf 50 deps).map (fun batch => batch.map (fun d => enrichOne d (fetch d))) := by
    apply List.map_congr_left
    intro batch _
    exact zip_map_enrichOne fetch batch
  rw [h1, ← List.map_flatten, chunksOf_flatten]

/-- Positional pairing of a list with its image under `g`. -/
theorem mem_zip_self_map {α : Type} (g : α → α) :
    ∀ (l : List α) (p : α × α), p ∈ l.zip (l.map g) → p.2 = g p.1 := by
  intro l
  induction l with
  | nil => intro p hp; simp at hp
  | cons x rest ih =>
    intro p hp
    simp only [List.map_cons, List.zip_cons_cons, List.mem_cons] at hp
    rcases hp with hp | hp
    · simp [hp]
    · exact ih p hp

/-- C7: enrichment frame conditions.  The enriched list is positionally
aligned with the input (same length); for every positional pair, a
successful fetch updates exactly `license_raw`, `license_spdx` and
`source`, any other outcome (not-found, fetch failure/timeout, join
failure) leaves the dependency completely unchanged, and in all cases
`name`, `version`, `ecosystem`, `risk` and `verdict` are untouched. -/
theorem enrich_updates_only_license_fields (fetch : Dependency → FetchOutcome)
    (deps : List Dependency) :
    (enrich_online fetch deps).length = deps.length ∧
    ∀ p ∈ deps.zip (enrich_online fetch deps),
      (∀ lic, fetch p.1 = .success lic →
        p.2 = { p.1 with license_raw := some lic, license_spdx := some lic,
                         source := .Registry }) ∧
      ((∀ lic, fetch p.1 ≠ .success lic) → p.2 = p.1) ∧
      p.2.name = p.1.name ∧ p.2.version = p.1.version ∧
      p.2.ecosystem = p.1.ecosystem ∧ p.2.risk = p.1.risk ∧ p.2.verdict = p.1.verdict := by
  rw [enrich_online_eq_map]
  constructor
  · simp
  · intro p hp
    have hpe := mem_zip_self_map (fun d => enrichOne d (fetch d)) deps p hp
    refine ⟨?_, ?_, ?_⟩
    · intro lic hlic
      rw [hpe]
      show enrichOne p.1 (fetch p.1) = _
      rw [hlic]
      rfl
    · intro hno
      rw [hpe]
      cases hfd : fetch p.1 with
      | success lic => exact absurd hfd (hno lic)
      | notFound => simp [enrichOne, hfd]
      | fetchFailed => simp [enrichOne, hfd]
      | joinFailed => simp [enrichOne, hfd]
    · rw [hpe]
      cases hfd : fetch p.1 <;> simp [enrichOne, hfd]

/-- Demonstration dependencies and fetch for the enrichment witness. -/
def depSerde : Dependency :=
  { name := "serde", version := "1.0.150", ecosystem := .Rust,
    license_raw := none, license_spdx := none,
    risk := .Unknown, verdict := .Warn, source := .Unknown }

/-- A second demonstration dependency whose fetch fails. -/
def depTokio : Dependency :=
  { name := "tokio", version := "1.25.0", ecosystem := .Rust,
    license_raw := some "Apache-2.0", license_spdx := some "Apache-2.0",
    risk := .Unknown, verdict := .Warn, source := .Cache }

/-- Demonstration fetch: `serde` resolves to MIT, everything else
times out. -/
def fetchDemo (d : Dependency) : FetchOutcome :=
  if d.name = "serde" then .success "MIT" else .fetchFailed

/-- The record C7 predicts for a successfully enriched `serde`. -/
def depSerdeEnriched : Dependency :=
  { depSerde with
      license_raw := some "MIT"
      license_spdx := some "MIT"
      source := LicenseSource.Registry }

/-- Witness for C7: in the two-element demonstration scan, the
successful fetch rewrites exactly the license fields of `serde`. -/
theorem enrich_updates_witness :
    (depSerde, depSerdeEnriched) ∈
      [depSerde, depTokio].zip (enrich_online fetchDemo [depSerde, depTokio]) ∧
    depSerdeEnriched =
      { depSerde with
          license_raw := some "MIT"
          license_spdx := some "MIT"
          source := LicenseSource.Registry } :=
  ⟨by decide,
    ((enrich_updates_only_license_fields fetchDemo [depSerde, depTokio]).2
      (depSerde, depSerdeEnriched) (by decide)).1 "MIT" (by decide)⟩

/-! ## C8 — reported projects form an antichain under path prefix -/

/-- No reported path extends another reported path. -/
def NoPrefixPairs (out : List (List String)) : Prop :=
  ∀ p ∈ out, ∀ q ∈ out, p ≠ q → ¬ p <+: q

/-- Two prefixes of equal length of a common list are equal. -/
theorem prefix_eq_of_length {α : Type} {l1 l2 L : List α}
    (h1 : l1 <+: L) (h2 : l2 <+: L) (hlen : l1.length = l2.length) : l1 = l2 := by
  have h12 := List.prefix_of_prefix_length_le h1 h2 (le_of_eq hlen)
  exact List.IsPrefix.eq_of_length h12 hlen

/-- The sorted, deny-list-filtered subdirectory list of a node: its
entries are entries of the node, its targets are nodes, and its names
are distinct. -/
theorem sorted_subs_facts (fs : FileSys) (hwf : WellFormedFS fs) (id : Nat)
    (hid : id < fs.nodes) :
    (∀ x ∈ List.insertionSort (fun a b => strLtB b.1 a.1 = false)
        ((fs.subdirs id).filter (fun p => ¬ p.1 ∈ SKIP_DIRS)), x.2 < fs.nodes) ∧
    ((List.insertionSort (fun a b => strLtB b.1 a.1 = false)
        ((fs.subdirs id).filter (fun p => ¬ p.1 ∈ SKIP_DIRS))).map Prod.fst).Nodup ∧
    (List.insertionSort (fun a b => strLtB b.1 a.1 = false)
        ((fs.subdirs id).filter (fun p => ¬ p.1 ∈ SKIP_DIRS))).length ≤ maxSubs fs := by
  have hperm := List.perm_insertionSort (fun a b => strLtB b.1 a.1 = false)
    ((fs.subdirs id).filter (fun p => ¬ p.1 ∈ SKIP_DIRS))
  refine ⟨?_, ?_, ?_⟩
  · intro x hx
    have hx0 := hperm.mem_iff.mp hx
    exact hwf.2.1 id hid x (List.mem_filter.mp hx0).1
  · have h0 : (((fs.subdirs id).filter (fun p => ¬ p.1 ∈ SKIP_DIRS)).map Prod.fst).Nodup :=
      List.Nodup.sublist (List.Sublist.map Prod.fst (List.filter_sublist _)) (hwf.2.2 id hid)
    exact (List.Perm.nodup_iff (List.Perm.map Prod.fst hperm)).mpr h0
  · have h1 := hperm.length_eq
    have h2 : ((fs.subdirs id).filter (fun p => ¬ p.1 ∈ SKIP_DIRS)).length ≤
        (fs.subdirs id).length := List.Sublist.length_le (List.filter_sublist _)
    have h3 : (fs.subdirs id).length ≤ maxSubs fs :=
      Finset.le_sup (f := fun i => (fs.subdirs i).length) (Finset.mem_range.mpr hid)
    omega

/-- Structure of the walker's reports: a `dir` call only reports paths
extending its own, with no report a prefix of another; a `kids` call
only reports paths extending one of its child entries' paths, likewise
an antichain as long as the child names are distinct. -/
theorem walk_antichain_aux (fs : FileSys) (hwf : WellFormedFS fs) : ∀ fuel : Nat,
    (∀ id path visited out vis, id < fs.nodes →
      walkF fs fuel (.dir id path) visited = some (out, vis) →
      (∀ p ∈ out, path <+: p) ∧ NoPrefixPairs out) ∧
    (∀ subs path visited out vis,
      (∀ x ∈ subs, x.2 < fs.nodes) → ((subs.map Prod.fst).Nodup) →
      walkF fs fuel (.kids subs path) visited = some (out, vis) →
      (∀ p ∈ out, ∃ x ∈ subs, (path ++ [x.1]) <+: p) ∧ NoPrefixPairs out) := by
  intro fuel
  induction fuel with
  | zero =>
    constructor
    · intro id path visited out vis _ h
      simp [walkF] at h
    · intro subs path visited out vis _ _ h
      simp [walkF] at h
  | succ fuel ih =>
    obtain ⟨ihDir, ihKids⟩ := ih
    constructor
    · intro id path visited out vis hid hw
      by_cases hv : id ∈ visited
      · simp only [walkF] at hw
        rw [if_pos hv] at hw
        cases hw
        exact ⟨by intro p hp; simp at hp, by intro p hp; simp at hp⟩
      · by_cases hproj : is_project fs id = true
        · simp only [walkF] at hw
          rw [if_neg hv, if_pos hproj] at hw
          cases hw
          refine ⟨by simp, ?_⟩
          intro p hp q hq hne
          simp only [List.mem_singleton] at hp hq
          exact absurd (hp.trans hq.symm) hne
        · simp only [walkF] at hw
          rw [if_neg hv, if_neg hproj] at hw
          obtain ⟨htargets, hnodup, _⟩ := sorted_subs_facts fs hwf id hid
          obtain ⟨hpre, hnop⟩ := ihKids _ path (id :: visited) out vis htargets hnodup hw
          refine ⟨?_, hnop⟩
          intro p hp
          obtain ⟨x, _, hxp⟩ := hpre p hp
          exact List.IsPrefix.trans (List.prefix_append path [x.1]) hxp
    · intro subs path visited out vis htargets hnodup hw
      cases subs with
      | nil =>
        simp only [walkF] at hw
        cases hw
        exact ⟨by intro p hp; simp at hp, by intro p hp; simp at hp⟩
      | cons x rest =>
        obtain ⟨n, t⟩ := x
        simp only [walkF] at hw
        cases h1 : walkF fs fuel (.dir t (path ++ [n])) visited with
        | none => simp [h1] at hw
        | some r1 =>
          obtain ⟨out1, vis1⟩ := r1
          simp only [h1] at hw
          cases h2 : walkF fs fuel (.kids rest path) vis1 with
          | none => simp [h2] at hw
          | some r2 =>
            obtain ⟨out2, vis2⟩ := r2
            simp only [h2, Option.some_inj, Prod.mk.injEq] at hw
            obtain ⟨hout, hvis⟩ := hw
            subst hout
            have ht : t < fs.nodes := htargets (n, t) (by simp)
            obtain ⟨hpre1, hnop1⟩ := ihDir t (path ++ [n]) visited out1 vis1 ht h1
            have htargets2 : ∀ y ∈ rest, y.2 < fs.nodes :=
              fun y hy => htargets y (by simp [hy])
            have hnodup2 : (rest.map Prod.fst).Nodup := by
              simpa using List.Nodup.of_cons (by simpa using hnodup)
            have hnotin : ¬ n ∈ rest.map Prod.fst :=
              (List.nodup_cons.mp (by simpa using hnodup)).1
            obtain ⟨hpre2, hnop2⟩ := ihKids rest path vis1 out2 vis2 htargets2 hnodup2 h2
            constructor
            · intro p hp
              rcases List.mem_append.mp hp with hp1 | hp2
              · exact ⟨(n, t), by simp, hpre1 p hp1⟩
              · obtain ⟨y, hy, hyp⟩ := hpre2 p hp2
                exact ⟨y, by simp [hy], hyp⟩
            · have cross : ∀ p ∈ out1, ∀ q ∈ out2, ¬ p <+: q := by
                intro p hp q hq hpq
                obtain ⟨y, hy, hyq⟩ := hpre2 q hq
                have hnq : (path ++ [n]) <+: q := (hpre1 p hp).trans hpq
                have heq : path ++ [n] = path ++ [y.1] :=
                  prefix_eq_of_length hnq hyq (by simp)
                have hny : n = y.1 := by simpa using heq
                exact hnotin (hny ▸ List.mem_map_of_mem Prod.fst hy)
              have cross2 : ∀ q ∈ out2, ∀ p ∈ out1, ¬ q <+: p := by
                intro q hq p hp hqp
                obtain ⟨y, hy, hyq⟩ := hpre2 q hq
                have hnp : (path ++ [n]) <+: p := hpre1 p hp
                have hyp : (path ++ [y.1]) <+: p := hyq.trans hqp
                have heq : path ++ [n] = path ++ [y.1] :=
                  prefix_eq_of_length hnp hyp (by simp)
                have hny : n = y.1 := by simpa using heq
                exact hnotin (hny ▸ List.mem_map_of_mem Prod.fst hy)
              intro p hp q hq hne
              rcases List.mem_append.mp hp with hp1 | hp2 <;>
                rcases List.mem_append.mp hq with hq1 | hq2
              · exact hnop1 p hp1 q hq1 hne
              · exact cross p hp1 q hq2
              · exact cross2 p hp2 q hq1
              · exact hnop2 p hp2 q hq2 hne

/-- C8: the Workspace Walker never reports a project directory nested
inside another reported project: for every well-formed directory graph,
the reported project paths form an antichain under the path-prefix
order — descent stops at the first project directory on each branch. -/
theorem walker_no_nested_reports (fs : FileSys) (hwf : WellFormedFS fs)
    (out : List (List String)) (hout : find_workspace_projects fs = some out) :
    ∀ p ∈ out, ∀ q ∈ out, p ≠ q → ¬ p <+: q := by
  unfold find_workspace_projects at hout
  cases hw : walkF fs (walkFuel fs) (.dir fs.root []) [] with
  | none => rw [hw] at hout; simp at hout
  | some r =>
    obtain ⟨out0, vis⟩ := r
    rw [hw] at hout
    simp only [Option.some_inj] at hout
    have hperm := List.perm_insertionSort (fun p q => pathLtB q p = false) out0
    have hnop := ((walk_antichain_aux fs hwf (walkFuel fs)).1
      fs.root [] [] out0 vis hwf.1 hw).2
    intro p hp q hq hne
    rw [← hout] at hp hq
    exact hnop p (hperm.mem_iff.mp hp) q (hperm.mem_iff.mp hq) hne

/-- A workspace with a project (`Cargo.toml`) in `sub` and another
manifest (`package.json`) nested below it in `sub/nested`. -/
def fsNested : FileSys :=
  { nodes := 3
    files := fun i => match i with
      | 1 => ["Cargo.toml"]
      | 2 => ["package.json"]
      | _ => []
    subdirs := fun i => match i with
      | 0 => [("sub", 1)]
      | 1 => [("nested", 2)]
      | _ => []
    root := 0 }

/-- Witness for C8: the nested-manifest workspace reports only `sub`,
and the reported list satisfies the antichain conclusion. -/
theorem walker_no_nested_reports_witness :
    find_workspace_projects fsNested = some [["sub"]] ∧
    (∀ p ∈ [["sub"]], ∀ q ∈ [["sub"]], p ≠ q → ¬ p <+: q) :=
  ⟨by decide, walker_no_nested_reports fsNested (by decide) [["sub"]] (by decide)⟩

/-! ## C9 — termination on symlink cycles -/

/-- Number of nodes not yet in the visited set. -/
def unvisitedCount (fs : FileSys) (visited : List Nat) : Nat :=
  ((Finset.range fs.nodes).filter (fun i => ¬ i ∈ visited)).card

/-- Visiting a fresh node decreases the unvisited count by one. -/
theorem unvisitedCount_cons (fs : FileSys) (visited : List Nat) (id : Nat)
    (hid : id < fs.nodes) (hnv : ¬ id ∈ visited) :
    unvisitedCount fs (id :: visited) + 1 = unvisitedCount fs visited := by
  unfold unvisitedCount
  have hmem : id ∈ (Finset.range fs.nodes).filter (fun i => ¬ i ∈ visited) := by
    simp [Finset.mem_filter, Finset.mem_range, hid, hnv]
  have hset : (Finset.range fs.nodes).filter (fun i => ¬ i ∈ (id :: visited)) =
      ((Finset.range fs.nodes).filter (fun i => ¬ i ∈ visited)).erase id := by
    ext i
    simp only [Finset.mem_filter, Finset.mem_erase, Finset.mem_range, List.mem_cons]
    tauto
  rw [hset, Finset.card_erase_of_mem hmem]
  have hpos : 0 < ((Finset.range fs.nodes).filter (fun i => ¬ i ∈ visited)).card :=
    Finset.card_pos.mpr ⟨id, hmem⟩
  omega

/-- Growing the visited set cannot increase the unvisited count. -/
theorem unvisitedCount_mono (fs : FileSys) {visited vis : List Nat}
    (hsub : visited ⊆ vis) : unvisitedCount fs vis ≤ unvisitedCount fs visited := by
  apply Finset.card_le_card
  intro i hi
  simp only [Finset.mem_filter, Finset.mem_range] at hi ⊢
  exact ⟨hi.1, fun hmem => hi.2 (hsub hmem)⟩

/-- The unvisited count never exceeds the node count. -/
theorem unvisitedCount_le (fs : FileSys) (visited : List Nat) :
    unvisitedCount fs visited ≤ fs.nodes := by
  calc ((Finset.range fs.nodes).filter (fun i => ¬ i ∈ visited)).card
      ≤ (Finset.range fs.nodes).card := Finset.card_le_card (Finset.filter_subset _ _)
    _ = fs.nodes := Finset.card_range _

/-- Fuel adequacy for the walker: with fuel at least
`unvisitedCount * (maxSubs + 2) + 1` a `dir` call completes, the
visited set only growing; similarly for a `kids` call with its list
length added.  This is where the canonicalized visited-set matters: a
revisit (symlink cycle) returns immediately, and each expansion
strictly shrinks the unvisited count. -/
theorem walk_fuel_sufficient (fs : FileSys) (hwf : WellFormedFS fs) : ∀ fuel : Nat,
    (∀ id path visited, id < fs.nodes →
      unvisitedCount fs visited * (maxSubs fs + 2) + 1 ≤ fuel →
      ∃ out vis, walkF fs fuel (.dir id path) visited = some (out, vis) ∧ visited ⊆ vis) ∧
    (∀ subs path visited, (∀ x ∈ subs, x.2 < fs.nodes) → subs.length ≤ maxSubs fs →
      unvisitedCount fs visited * (maxSubs fs + 2) + subs.length + 1 ≤ fuel →
      ∃ out vis, walkF fs fuel (.kids subs path) visited = some (out, vis) ∧ visited ⊆ vis) := by
  intro fuel
  induction fuel with
  | zero =>
    constructor
    · intro id path visited _ hb
      omega
    · intro subs path visited _ _ hb
      omega
  | succ fuel ih =>
    obtain ⟨ihDir, ihKids⟩ := ih
    constructor
    · intro id path visited hid hb
      by_cases hv : id ∈ visited
      · refine ⟨[], visited, ?_, List.Subset.refl _⟩
        simp only [walkF]
        rw [if_pos hv]
      · by_cases hproj : is_project fs id = true
        · refine ⟨[path], id :: visited, ?_, ?_⟩
          · simp only [walkF]
            rw [if_neg hv, if_pos hproj]
          · intro a ha; simp [ha]
        · obtain ⟨htargets, _, hlen1⟩ := sorted_subs_facts fs hwf id hid
          have hcount := unvisitedCount_cons fs visited id hid hv
          have hbound : unvisitedCount fs (id :: visited) * (maxSubs fs + 2) +
              (List.insertionSort (fun a b => strLtB b.1 a.1 = false)
                ((fs.subdirs id).filter (fun p => ¬ p.1 ∈ SKIP_DIRS))).length + 1 ≤ fuel := by
            have hexp : (unvisitedCount fs (id :: visited) + 1) * (maxSubs fs + 2) =
                unvisitedCount fs (id :: visited) * (maxSubs fs + 2) + (maxSubs fs + 2) := by
              ring
            rw [← hcount, hexp] at hb
            omega
          obtain ⟨out, vis, hw, hsubv⟩ :=
            ihKids _ path (id :: visited) htargets hlen1 hbound
          refine ⟨out, vis, ?_, ?_⟩
          · simp only [walkF]
            rw [if_neg hv, if_neg hproj]
            exact hw
          · intro a ha
            exact hsubv (by simp [ha])
    · intro subs path visited htargets hslen hb
      cases subs with
      | nil => exact ⟨[], visited, by simp [walkF], List.Subset.refl _⟩
      | cons x rest =>
        obtain ⟨n, t⟩ := x
        have ht : t < fs.nodes := htargets (n, t) (by simp)
        have hbd : unvisitedCount fs visited * (maxSubs fs + 2) + 1 ≤ fuel := by
          simp only [List.length_cons] at hb
          omega
        obtain ⟨out1, vis1, h1, hsub1⟩ := ihDir t (path ++ [n]) visited ht hbd
        have htargets2 : ∀ y ∈ rest, y.2 < fs.nodes :=
          fun y hy => htargets y (by simp [hy])
        have hlen2 : rest.length ≤ maxSubs fs := by
          simp only [List.length_cons] at hslen
          omega
        have hb2 : unvisitedCount fs vis1 * (maxSubs fs + 2) + rest.length + 1 ≤ fuel := by
          have hm : unvisitedCount fs vis1 ≤ unvisitedCount fs visited :=
            unvisitedCount_mono fs hsub1
          have hmm : unvisitedCount fs vis1 * (maxSubs fs + 2) ≤
              unvisitedCount fs visited * (maxSubs fs + 2) :=
            Nat.mul_le_mul_right _ hm
          simp only [List.length_cons] at hb
          omega
        obtain ⟨out2, vis2, h2, hsub2⟩ := ihKids rest path vis1 htargets2 hlen2 hb2
        refine ⟨out1 ++ out2, vis2, ?_, fun a ha => hsub2 (hsub1 ha)⟩
        simp only [walkF]
        simp only [h1, h2]

/-- When no node is a project, the walker reports nothing. -/
theorem walk_no_projects (fs : FileSys) (hwf : WellFormedFS fs)
    (hnp : ∀ i < fs.nodes, is_project fs i = false) : ∀ fuel : Nat,
    (∀ id path visited out vis, id < fs.nodes →
      walkF fs fuel (.dir id path) visited = some (out, vis) → out = []) ∧
    (∀ subs path visited out vis, (∀ x ∈ subs, x.2 < fs.nodes) →
      walkF fs fuel (.kids subs path) visited = some (out, vis) → out = []) := by
  intro fuel
  induction fuel with
  | zero =>
    constructor
    · intro id path visited out vis _ h
      simp [walkF] at h
    · intro subs path visited out vis _ h
      simp [walkF] at h
  | succ fuel ih =>
    obtain ⟨ihDir, ihKids⟩ := ih
    constructor
    · intro id path visited out vis hid hw
      by_cases hv : id ∈ visited
      · simp only [walkF] at hw
        rw [if_pos hv] at hw
        cases hw
        rfl
      · have hproj : ¬ is_project fs id = true := by simp [hnp id hid]
        simp only [walkF] at hw
        rw [if_neg hv, if_neg hproj] at hw
        obtain ⟨htargets, _, _⟩ := sorted_subs_facts fs hwf id hid
        exact ihKids _ path (id :: visited) out vis htargets hw
    · intro subs path visited out vis htargets hw
      cases subs with
      | nil =>
        simp only [walkF] at hw
        cases hw
        rfl
      | cons x rest =>
        obtain ⟨n, t⟩ := x
        simp only [walkF] at hw
        cases h1 : walkF fs fuel (.dir t (path ++ [n])) visited with
        | none => simp [h1] at hw
        | some r1 =>
          obtain ⟨out1, vis1⟩ := r1
          simp only [h1] at hw
          cases h2 : walkF fs fuel (.kids rest path) vis1 with
          | none => simp [h2] at hw
          | some r2 =>
            obtain ⟨out2, vis2⟩ := r2
            simp only [h2, Option.some_inj, Prod.mk.injEq] at hw
            obtain ⟨hout, hvis⟩ := hw
            have e1 : out1 = [] :=
              ihDir t (path ++ [n]) visited out1 vis1 (htargets (n, t) (by simp)) h1
            have e2 : out2 = [] :=
              ihKids rest path vis1 out2 vis2 (fun y hy => htargets y (by simp [hy])) h2
            rw [← hout, e1, e2]
            rfl

/-- C9: on every well-formed directory graph — symlink cycles included —
the walk completes within the fuel chosen by `find_workspace_projects`
(the canonicalized visited-set stops revisits), and when no directory
is a project the result is the empty list. -/
theorem walker_terminates_and_empty (fs : FileSys) (hwf : WellFormedFS fs) :
    (find_workspace_projects fs).isSome ∧
    ((∀ i < fs.nodes, is_project fs i = false) → find_workspace_projects fs = some []) := by
  have hbound : unvisitedCount fs [] * (maxSubs fs + 2) + 1 ≤ walkFuel fs := by
    have h1 : unvisitedCount fs [] ≤ fs.nodes := unvisitedCount_le fs []
    have h2 : unvisitedCount fs [] * (maxSubs fs + 2) ≤ fs.nodes * (maxSubs fs + 2) :=
      Nat.mul_le_mul_right _ h1
    unfold walkFuel
    omega
  obtain ⟨out, vis, hw, _⟩ :=
    (walk_fuel_sufficient fs hwf (walkFuel fs)).1 fs.root [] [] hwf.1 hbound
  constructor
  · unfold find_workspace_projects
    rw [hw]
    rfl
  · intro hnp
    have hout : out = [] :=
      (walk_no_projects fs hwf hnp (walkFuel fs)).1 fs.root [] [] out vis hwf.1 hw
    unfold find_workspace_projects
    rw [hw, hout]
    rfl

/-- A two-node directory graph whose directory entries form a symlink
cycle (node 0 → node 1 → node 0) with no manifest files anywhere. -/
def fsCycle : FileSys :=
  { nodes := 2
    files := fun _ => []
    subdirs := fun i => match i with
      | 0 => [("a", 1)]
      | 1 => [("b", 0)]
      | _ => []
    root := 0 }

/-- Witness for C9: the cyclic, manifest-free workspace terminates with
the empty project list. -/
theorem walker_terminates_and_empty_witness :
    find_workspace_projects fsCycle = some [] :=
  (walker_terminates_and_empty fsCycle (by decide)).2 (by decide)

end LicenseCheckr
